import Mathlib

/-!
Shallow embedding of the modular-arithmetic library (`src/src/modulus.rs`,
`src/src/lib.rs`).

Conventions of the embedding:

* Rust `u64` values are modelled as `Nat`; wherever `u64` arithmetic can
  wrap, the result is taken modulo `2 ^ 64` explicitly.
* Rust `i64` intermediates (used by `StaticModulus64::inv`) are modelled as
  `Int` reduced by `wrap64`, i.e. two's-complement wrap-around semantics.
* Rust `/` and `%` on signed integers truncate toward zero; they are
  modelled by `Int.tdiv` and `Int.tmod`.
* A Rust `assert!` failure or a division by zero aborts the program; an
  operation that can abort returns `Option` (`none` = abort, never returns).
* Rust `while` loops are modelled by fuel recursion; every call site passes
  fuel that is proved (or evident) to exceed the number of iterations the
  loop can perform on inputs reachable in the source, so `none`-by-fuel is
  unreachable there.
* The generic representation type `T` of `DynamicModulus<T>` is modelled as
  `Int`: `T` must supply `Neg`, so it is a signed integer type, and the
  spec (section 7) requires callers to pick `T` wide enough that squared
  intermediates do not overflow, which `Int` reflects.  Rust `%` by zero
  panics, so dynamic operations are only stated for a modulus `M ≥ 1`.
-/

/-- Size of the `u64` value space. -/
def u64Size : Nat := 2 ^ 64

/-- Reinterpret an integer as a signed 64-bit value (two's-complement
wrap-around, the semantics of `as i64` casts and of wrapping arithmetic). -/
def wrap64 (z : Int) : Int := (z + 2 ^ 63) % 2 ^ 64 - 2 ^ 63

/-- Cast an `i64` value to `u64` (`as u64`): wrap modulo `2 ^ 64`. -/
def toU64 (z : Int) : Nat := (z % 2 ^ 64).toNat

/-! ### `StaticModulus64<M>`: `impl Modulus<u64> for StaticModulus64<M>` -/

/-- Embeds `fn modulus(&self) -> u64 { M }` -/
def StaticModulus64.modulus (M : Nat) : Nat := M

/-- Embeds `fn rem(&self, x: u64) -> u64 { x % M }`.  Rust `%` by zero panics,
hence the `M = 0` guard. -/
def StaticModulus64.rem (M x : Nat) : Option Nat :=
  if M = 0 then none else some (x % M)

/-- Embeds `fn zero(&self) -> u64 { 0 }` -/
def StaticModulus64.zero (_M : Nat) : Nat := 0

/-- Embeds `fn one(&self) -> u64 { 1 }` -/
def StaticModulus64.one (_M : Nat) : Nat := 1

/-- Embeds `fn neg(&self, x: u64) -> u64`: assert `x < M`; `0` if `x == 0`, else
`M - x`. -/
def StaticModulus64.neg (M x : Nat) : Option Nat :=
  if x < M then some (if x = 0 then 0 else M - x) else none

/-- Embeds `fn add(&self, x: u64, y: u64) -> u64`: assert `x < M && y < M`;
`z = x + y` in `u64` (wraps at `2 ^ 64`), then conditionally subtract `M`. -/
def StaticModulus64.add (M x y : Nat) : Option Nat :=
  if x < M ∧ y < M then
    some (let z := (x + y) % u64Size; if M ≤ z then z - M else z)
  else none

/-- Embeds `fn mul(&self, x: u64, y: u64) -> u64`: assert `x < M && y < M`;
`(x as u128 * y as u128 % M as u128) as u64`.  The `u128` product of two
`u64` values never wraps, and the result is `< M < 2 ^ 64`, so the final
cast is lossless. -/
def StaticModulus64.mul (M x y : Nat) : Option Nat :=
  if x < M ∧ y < M then some (x * y % M) else none

/-- Extended-Euclid loop shared by both `inv` implementations, exact
mathematical-integer version (used by `DynamicModulus::inv`):
`while t.0 != 0 { u = s.0 / t.0; s.0 -= t.0*u; s.1 -= t.1*u; swap(s, t) }`,
with `/` truncating toward zero.  `fuel` bounds the iteration count. -/
def xgcdGo : Nat → Int → Int → Int → Int → Option (Int × Int)
  | 0, _, _, _, _ => none
  | fuel + 1, s0, s1, t0, t1 =>
    if t0 = 0 then some (s0, s1)
    else
      let u := s0.tdiv t0
      xgcdGo fuel t0 t1 (s0 - t0 * u) (s1 - t1 * u)

/-- Same loop in `i64` arithmetic (used by `StaticModulus64::inv`): every
primitive operation wraps at the 64-bit boundary. -/
def xgcdGo64 : Nat → Int → Int → Int → Int → Option (Int × Int)
  | 0, _, _, _, _ => none
  | fuel + 1, s0, s1, t0, t1 =>
    if t0 = 0 then some (s0, s1)
    else
      let u := wrap64 (s0.tdiv t0)
      xgcdGo64 fuel t0 t1 (wrap64 (s0 - wrap64 (t0 * u))) (wrap64 (s1 - wrap64 (t1 * u)))

/-- Embeds `fn inv(&self, x: u64) -> u64` of `StaticModulus64<M>`:
assert `x < M`; assert `x != 0`; run the extended-Euclid loop on
`s = (M as i64, 0)`, `t = (x as i64, 1)`; assert `s.0 == 1`; if `s.1 < 0`
add `(M / s.0 as u64) as i64`; return `s.1 as u64`.  The loop in the
source has no iteration bound; fuel `u64Size` exceeds the iteration count
of every terminating run reachable below. -/
def StaticModulus64.inv (M x : Nat) : Option Nat :=
  if x < M then
    if x = 0 then none
    else
      match xgcdGo64 u64Size (wrap64 (M : Int)) 0 (wrap64 (x : Int)) 1 with
      | none => none
      | some (g, a) =>
        if g = 1 then
          some (toU64 (if a < 0 then wrap64 (a + wrap64 ((M / toU64 g : Nat) : Int)) else a))
        else none
  else none

/-- Trait default `fn sub(&self, x, y) { self.add(x, self.neg(y)) }`. -/
def StaticModulus64.sub (M x y : Nat) : Option Nat :=
  (StaticModulus64.neg M y).bind (StaticModulus64.add M x)

/-- Trait default `fn div(&self, x, y) { self.mul(x, self.inv(y)) }`. -/
def StaticModulus64.div (M x y : Nat) : Option Nat :=
  (StaticModulus64.inv M y).bind (StaticModulus64.mul M x)

/-- Trait default `pow` loop (`while y != 0`), specialised to the static
modulus: test the low bit and multiply into `z`, square `x`, shift `y`.
Fuel `y + 1` bounds the number of halvings of `y`. -/
def StaticModulus64.powGo : Nat → Nat → Nat → Nat → Nat → Option Nat
  | 0, _, _, z, _ => some z
  | fuel + 1, M, x, z, y =>
    if y = 0 then some z
    else
      (if y % 2 = 1 then StaticModulus64.mul M z x else some z).bind fun z' =>
        (StaticModulus64.mul M x x).bind fun x' =>
          StaticModulus64.powGo fuel M x' z' (y / 2)

/-- Trait `fn pow(&self, x, y)` for `StaticModulus64<M>`: starts from
`z = self.one()`. -/
def StaticModulus64.pow (M x y : Nat) : Option Nat :=
  StaticModulus64.powGo (y + 1) M x (StaticModulus64.one M) y

/-! ### `const fn mod_pow` and `const fn is_prime` (file-level helpers) -/

/-- Loop of `const fn mod_pow(x, y, m)`: `z` accumulates, `x` squares, `y`
shifts right; all products widen to `u128` and reduce by `m`, so no wrap
occurs and results stay below `m`.  Only called with `m ≥ 2` in the source. -/
def modPowGo : Nat → Nat → Nat → Nat → Nat → Nat
  | 0, _, _, _, z => z
  | fuel + 1, x, y, m, z =>
    if y = 0 then z
    else modPowGo fuel (x * x % m) (y / 2) m (if y % 2 = 1 then z * x % m else z)

/-- Embeds `const fn mod_pow(mut x: u64, mut y: u64, m: u64) -> u64`. -/
def mod_pow (x y m : Nat) : Nat := modPowGo (y + 1) x y m 1

/-- Embeds `m >> m.trailing_zeros()`: strip every trailing factor of two (for
`m = 0` both the source shift and this function give `0`).  Fuel `m`
bounds the number of halvings. -/
def oddPartGo : Nat → Nat → Nat
  | 0, m => m
  | fuel + 1, m => if m % 2 = 0 ∧ m ≠ 0 then oddPartGo fuel (m / 2) else m

/-- Odd part of `m`, the value of `m >> m.trailing_zeros()`. -/
def oddPart (m : Nat) : Nat := oddPartGo m m

/-- Inner witness loop of `is_prime`:
`while t != n-1 && y != 1 && y != n-1 { y = y*y % n; t <<= 1; }` returning
the final `(t, y)`.  `t <<= 1` is a `u64` shift, hence the wrap at
`2 ^ 64`; fuel `64` covers every `u64` run (`t` starts at the odd part `d`
of `n - 1` and reaches `n - 1 = d * 2^r`, `r ≤ 63`, after `r` doublings). -/
def mrGo : Nat → Nat → Nat → Nat → Nat × Nat
  | 0, _, t, y => (t, y)
  | fuel + 1, n, t, y =>
    if t ≠ n - 1 ∧ y ≠ 1 ∧ y ≠ n - 1 then mrGo fuel n (t * 2 % u64Size) (y * y % n)
    else (t, y)

/-- Body of the `for`-each-witness step of `is_prime`: run the inner loop
from `t = d`, `y = mod_pow(a, d, n)` and report `false` (composite) when
`y != n-1 && t & 1 == 0` at exit. -/
def mrWitness (n d a : Nat) : Bool :=
  let p := mrGo 64 n d (mod_pow a d n)
  !(p.2 != n - 1 && p.1 % 2 == 0)

/-- Embeds `const fn is_prime(n: u64) -> bool`: deterministic Miller–Rabin with
the fixed witness array `[2, 7, 61]` (the `while i < witnesses.len()` loop
with its early `return false` is the conjunction of the three checks). -/
def is_prime (n : Nat) : Bool :=
  if n ≤ 1 then false
  else if n = 2 ∨ n = 7 ∨ n = 61 then true
  else if n % 2 = 0 then false
  else
    let d := oddPart (n - 1)
    mrWitness n d 2 && mrWitness n d 7 && mrWitness n d 61

/-! ### `StaticModulus64::primitive_root` -/

/-- Embeds `x /= i; while x % i == 0 { x /= i; }` given that `i` divides `x`: the
argument below is already `x / i`, and the loop keeps dividing while
divisible.  Fuel bounds the halvings (callers pass the original `x`). -/
def stripFactorGo : Nat → Nat → Nat → Nat
  | 0, x, _ => x
  | fuel + 1, x, i => if x % i = 0 then stripFactorGo fuel (x / i) i else x

/-- Trial-division loop of `compute_primitive_root`: odd `i` from `3`
while `i * i <= x`, collecting each prime factor once and stripping it
from `x`; returns the collected factors and the remaining `x`.  The source
stores factors in a fixed `[u64; 16]` buffer; a `u64` value has at most 15
distinct prime factors, so the buffer never overflows and a list is a
faithful model. -/
def factorGo : Nat → Nat → Nat → List Nat → List Nat × Nat
  | 0, _, x, ps => (ps, x)
  | fuel + 1, i, x, ps =>
    if i * i ≤ x then
      if x % i = 0 then factorGo fuel (i + 2) (stripFactorGo x (x / i) i) (ps ++ [i])
      else factorGo fuel (i + 2) x ps
    else (ps, x)

/-- Search loop `'find_root`: try `g = 2, 3, 4, …`; reject `g` as soon as
`mod_pow(g, (M-1)/p, M) == 1` for some collected factor `p`. -/
def searchGo : Nat → Nat → List Nat → Nat → Nat
  | 0, _, _, g => g
  | fuel + 1, M, ps, g =>
    if ps.any (fun p => mod_pow g ((M - 1) / p) M == 1) then searchGo fuel M ps (g + 1)
    else g

/-- Embeds `const fn compute_primitive_root() -> u64`: factor `M - 1` (the factor
`2` is pre-seeded: `primes = [2; 16]; primes_len = 1`), append any leftover
cofactor `> 1`, then search for the first generator. -/
def compute_primitive_root (M : Nat) : Nat :=
  let start := oddPart (M - 1)
  let fx := factorGo (M + 2) 3 start [2]
  let ps := if fx.2 > 1 then fx.1 ++ [fx.2] else fx.1
  searchGo (M + 2) M ps 2

/-- Embeds `pub const fn primitive_root() -> u64`: lookup table for six well-known
moduli, otherwise `compute_primitive_root`. -/
def primitive_root (M : Nat) : Nat :=
  if M = 2 then 1
  else if M = 65537 then 3
  else if M = 167772161 then 3
  else if M = 469762049 then 3
  else if M = 754974721 then 11
  else if M = 998244353 then 3
  else compute_primitive_root M

/-! ### `impl Modulus<T> for DynamicModulus<T>` with `T = Int` -/

/-- Embeds `fn modulus(&self) -> T { self.0.clone() }` -/
def DynamicModulus.modulus (M : Int) : Int := M

/-- Embeds `fn rem(&self, x: T) -> T { x % self.modulus() }` (Rust `%` truncates
toward zero). -/
def DynamicModulus.rem (M x : Int) : Int := x.tmod M

/-- Embeds `fn zero(&self) -> T { T::from(false) }` -/
def DynamicModulus.zero (_M : Int) : Int := 0

/-- Embeds `fn one(&self) -> T { T::from(true) % self.modulus() }` -/
def DynamicModulus.one (M : Int) : Int := Int.tmod 1 M

/-- Embeds `fn neg(&self, x: T) -> T { -x % self.modulus() }` -/
def DynamicModulus.neg (M x : Int) : Int := (-x).tmod M

/-- Embeds `fn add(&self, x: T, y: T) -> T { (x + y) % self.0.clone() }` -/
def DynamicModulus.add (M x y : Int) : Int := (x + y).tmod M

/-- Embeds `fn mul(&self, x: T, y: T) -> T { (x * y) % self.0.clone() }` -/
def DynamicModulus.mul (M x y : Int) : Int := (x * y).tmod M

/-- Trait default `sub = add(x, neg(y))`. -/
def DynamicModulus.sub (M x y : Int) : Int :=
  DynamicModulus.add M x (DynamicModulus.neg M y)

/-- Embeds `fn inv(&self, x: T) -> T` of `DynamicModulus<T>`: assert `x != 0`,
run the extended-Euclid loop on `s = (M, zero())`, `t = (x, one())`;
there is no `gcd == 1` assertion; if `s.1 < 0`, replace it by
`self.add(s.1, self.modulus() / s.0)`.  The loop terminates because
`|t.0|` strictly decreases, in at most `|x| + 1` iterations, which is the
fuel passed here. -/
def DynamicModulus.inv (M x : Int) : Option Int :=
  if x = DynamicModulus.zero M then none
  else
    match xgcdGo (x.natAbs + 1) M (DynamicModulus.zero M) x (DynamicModulus.one M) with
    | none => none
    | some (g, a) =>
      some (if a < DynamicModulus.zero M then DynamicModulus.add M a (M.tdiv g) else a)

/-- Trait default `div = mul(x, inv(y))`. -/
def DynamicModulus.div (M x y : Int) : Option Int :=
  (DynamicModulus.inv M y).map (DynamicModulus.mul M x)

/-- Trait default `pow` loop specialised to the dynamic modulus. -/
def DynamicModulus.powGo : Nat → Int → Int → Int → Nat → Int
  | 0, _, _, z, _ => z
  | fuel + 1, M, x, z, y =>
    if y = 0 then z
    else
      DynamicModulus.powGo fuel M (DynamicModulus.mul M x x)
        (if y % 2 = 1 then DynamicModulus.mul M z x else z) (y / 2)

/-- Trait `pow` for `DynamicModulus<T>`. -/
def DynamicModulus.pow (M x : Int) (y : Nat) : Int :=
  DynamicModulus.powGo (y + 1) M x (DynamicModulus.one M) y

/-- Trial-division loop of `DynamicModulus::is_prime`:
`while i*i <= M { if M % i == 0 { return false; } i = i + one(); }`.
Rust `%` panics when `i = 0` (reached for `M = 1`, where `one() = 0`),
hence the `none` branch. -/
def DynamicModulus.isPrimeGo : Nat → Int → Int → Option Bool
  | 0, _, _ => none
  | fuel + 1, M, i =>
    if i * i ≤ M then
      if i = 0 then none
      else if M.tmod i = DynamicModulus.zero M then some false
      else DynamicModulus.isPrimeGo fuel M (i + DynamicModulus.one M)
    else some true

/-- Embeds `fn is_prime(&self) -> bool` of `DynamicModulus<T>`: guard
`self.modulus() == self.one()`, then trial division from
`i = one() + one()`.  Fuel `M.natAbs + 2` exceeds the iteration count for
every `M ≥ 1` (the loop index grows by one up to at most `M`). -/
def DynamicModulus.is_prime (M : Int) : Option Bool :=
  if M = DynamicModulus.one M then some false
  else DynamicModulus.isPrimeGo (M.natAbs + 2) M (DynamicModulus.one M + DynamicModulus.one M)

/-! ### The `ModInt` value wrapper (`src/src/lib.rs`) -/

/-- Embeds `pub struct StaticModulus64<const M: u64>;` — a field-less (unit)
struct; it has exactly one value per `M`. -/
structure StaticModulus64 (M : Nat) : Type where

/-- Derived `PartialEq` of a field-less struct: always `true`. -/
def StaticModulus64.beq {M : Nat} (_a _b : StaticModulus64 M) : Bool := true

/-- Outcome of a `ModInt` binary operator: the `assert!(…, "mod mismatch")`
failure is the distinguished error; the delegated modulus operation itself
may still abort (`Option`). -/
inductive ModIntError : Type where
  | modMismatch : ModIntError
deriving DecidableEq

/-- Embeds `pub struct ModInt<T, M> { value: T, modulus: M }` instantiated at
`T = u64`, `M = StaticModulus64<M>`. -/
structure ModInt (M : Nat) : Type where
  value : Nat
  modulus : StaticModulus64 M

/-- Embeds `impl Add for ModInt<u64, StaticModulus64<M>>`: assert equal moduli
(`"mod mismatch"`), then delegate to the strategy's `add`.  The `AddAssign`
form performs the same check and delegates to the same operation (its
`replace`/`MaybeUninit` dance is an ownership trick with no semantic
effect), so this definition covers both. -/
def ModInt.add {M : Nat} (a b : ModInt M) : Except ModIntError (Option (ModInt M)) :=
  if StaticModulus64.beq a.modulus b.modulus then
    Except.ok ((StaticModulus64.add M a.value b.value).map fun v => ⟨v, a.modulus⟩)
  else Except.error ModIntError.modMismatch

/-- Embeds `impl Sub for ModInt<u64, StaticModulus64<M>>` (and `SubAssign`). -/
def ModInt.sub {M : Nat} (a b : ModInt M) : Except ModIntError (Option (ModInt M)) :=
  if StaticModulus64.beq a.modulus b.modulus then
    Except.ok ((StaticModulus64.sub M a.value b.value).map fun v => ⟨v, a.modulus⟩)
  else Except.error ModIntError.modMismatch

/-- Embeds `impl Mul for ModInt<u64, StaticModulus64<M>>` (and `MulAssign`). -/
def ModInt.mul {M : Nat} (a b : ModInt M) : Except ModIntError (Option (ModInt M)) :=
  if StaticModulus64.beq a.modulus b.modulus then
    Except.ok ((StaticModulus64.mul M a.value b.value).map fun v => ⟨v, a.modulus⟩)
  else Except.error ModIntError.modMismatch

/-- Embeds `impl Div for ModInt<u64, StaticModulus64<M>>` (and `DivAssign`). -/
def ModInt.div {M : Nat} (a b : ModInt M) : Except ModIntError (Option (ModInt M)) :=
  if StaticModulus64.beq a.modulus b.modulus then
    Except.ok ((StaticModulus64.div M a.value b.value).map fun v => ⟨v, a.modulus⟩)
  else Except.error ModIntError.modMismatch

/-- Embeds `ModInt<T, DynamicModulus<T>>` with `T = Int`: the derived `PartialEq`
of `DynamicModulus<T>` compares the wrapped modulus values. -/
structure ModIntDyn : Type where
  value : Int
  modulus : Int

/-- Embeds `impl Add for ModInt<T, DynamicModulus<T>>`: the modulus-equality
assertion compares the runtime modulus values. -/
def ModIntDyn.add (a b : ModIntDyn) : Except ModIntError ModIntDyn :=
  if a.modulus = b.modulus then
    Except.ok ⟨DynamicModulus.add a.modulus a.value b.value, a.modulus⟩
  else Except.error ModIntError.modMismatch


/-! ### Basic facts about the embedding primitives -/

lemma wrap64_eq_self {z : Int} (h1 : -(2 ^ 63) ≤ z) (h2 : z < 2 ^ 63) :
    wrap64 z = z := by
  have h : (z + 2 ^ 63) % 2 ^ 64 = z + 2 ^ 63 :=
    Int.emod_eq_of_lt (by omega) (by omega)
  unfold wrap64
  omega

lemma toU64_eq {z : Int} (h1 : 0 ≤ z) (h2 : z < 2 ^ 64) :
    (toU64 z : Int) = z := by
  have h : z % 2 ^ 64 = z := Int.emod_eq_of_lt h1 h2
  unfold toU64
  rw [h, Int.toNat_of_nonneg h1]

lemma StaticModulus64.mul_eq {M x y : Nat} (hx : x < M) (hy : y < M) :
    StaticModulus64.mul M x y = some (x * y % M) := by
  simp [StaticModulus64.mul, hx, hy]

lemma StaticModulus64.add_closed {M x y : Nat} (hx : x < M) (hy : y < M) :
    ∃ r, StaticModulus64.add M x y = some r ∧ r < M := by
  have hu : (x + y) % u64Size < 2 ^ 64 := Nat.mod_lt _ (by norm_num [u64Size])
  have hle : (x + y) % u64Size ≤ x + y := Nat.mod_le _ _
  unfold StaticModulus64.add
  rw [if_pos (And.intro hx hy)]
  refine ⟨if M ≤ (x + y) % u64Size then (x + y) % u64Size - M else (x + y) % u64Size,
    rfl, ?_⟩
  by_cases h : M ≤ (x + y) % u64Size
  · rw [if_pos h]; omega
  · rw [if_neg h]; omega

/-- With no wrap (`M ≤ 2 ^ 63`) the conditional subtraction computes the
exact remainder. -/
lemma StaticModulus64.add_eq {M x y : Nat} (hM : M ≤ 2 ^ 63) (hx : x < M) (hy : y < M) :
    StaticModulus64.add M x y = some ((x + y) % M) := by
  have hnw : (x + y) % u64Size = x + y :=
    Nat.mod_eq_of_lt (by unfold u64Size; omega)
  unfold StaticModulus64.add
  rw [if_pos (And.intro hx hy)]
  simp only [hnw]
  by_cases h : M ≤ x + y
  · rw [if_pos h, Nat.mod_eq_sub_mod h, Nat.mod_eq_of_lt (by omega)]
  · rw [if_neg h, Nat.mod_eq_of_lt (by omega)]

/-! ### Correctness of the binary-exponentiation loops -/

lemma mulmod_helper (M a b k : Nat) :
    (a % M) * ((b % M) ^ k) % M = a * b ^ k % M := by
  rw [Nat.mul_mod, Nat.mod_mod_of_dvd a dvd_rfl, ← Nat.pow_mod, ← Nat.mul_mod]

lemma pow_split {α : Type} [Monoid α] (x : α) (y : Nat) :
    x ^ y = x ^ (y % 2) * (x * x) ^ (y / 2) := by
  have hxx : x * x = x ^ 2 := (pow_two x).symm
  rw [hxx, ← pow_mul, ← pow_add]
  congr 1
  omega

lemma StaticModulus64.powGo_eq {M : Nat} (hM : 1 < M) :
    ∀ fuel y x z, y < fuel → x < M → z < M →
      StaticModulus64.powGo fuel M x z y = some (z * x ^ y % M) := by
  intro fuel
  induction fuel with
  | zero => intro y x z hy; omega
  | succ fuel ih =>
    intro y x z hy hx hz
    by_cases h0 : y = 0
    · subst h0
      simp [StaticModulus64.powGo, Nat.mod_eq_of_lt hz]
    · have hxx : StaticModulus64.mul M x x = some (x * x % M) :=
        StaticModulus64.mul_eq hx hx
      have hrec : ∀ z', z' < M →
          StaticModulus64.powGo fuel M (x * x % M) z' (y / 2) =
            some (z' * (x * x % M) ^ (y / 2) % M) := fun z' hz' =>
        ih (y / 2) (x * x % M) z' (by omega) (Nat.mod_lt _ (by omega)) hz'
      by_cases hpar : y % 2 = 1
      · have hzx : StaticModulus64.mul M z x = some (z * x % M) :=
          StaticModulus64.mul_eq hz hx
        have hstep : StaticModulus64.powGo (fuel + 1) M x z y =
            StaticModulus64.powGo fuel M (x * x % M) (z * x % M) (y / 2) := by
          simp [StaticModulus64.powGo, h0, hpar, hzx, hxx]
        rw [hstep, hrec (z * x % M) (Nat.mod_lt _ (by omega))]
        refine congrArg some ?_
        have h1 : z * x % M * (x * x % M) ^ (y / 2) % M
            = (z * x) * (x * x) ^ (y / 2) % M := by
          have := mulmod_helper M (z * x) (x * x) (y / 2)
          simpa using this
        rw [h1, pow_split x y, hpar, pow_one, ← mul_assoc]
      · have hstep : StaticModulus64.powGo (fuel + 1) M x z y =
            StaticModulus64.powGo fuel M (x * x % M) z (y / 2) := by
          simp [StaticModulus64.powGo, h0, hpar, hxx]
        rw [hstep, hrec z hz]
        refine congrArg some ?_
        have hz' : z % M = z := Nat.mod_eq_of_lt hz
        have h1 : z * (x * x % M) ^ (y / 2) % M = z * (x * x) ^ (y / 2) % M := by
          conv_lhs => rw [← hz']
          rw [mulmod_helper M z (x * x) (y / 2)]
        rw [h1, pow_split x y]
        have hpar0 : y % 2 = 0 := by omega
        rw [hpar0, pow_zero, one_mul]

lemma StaticModulus64.pow_eq {M x : Nat} (hM : 1 < M) (hx : x < M) (y : Nat) :
    StaticModulus64.pow M x y = some (x ^ y % M) := by
  have h := StaticModulus64.powGo_eq hM (y + 1) y x 1 (by omega) hx (by omega)
  simpa [StaticModulus64.pow, StaticModulus64.one] using h

lemma int_pow_emod (a : Int) (k : Nat) (n : Int) : (a % n) ^ k % n = a ^ k % n := by
  induction k with
  | zero => simp
  | succ k ih =>
    rw [pow_succ, pow_succ, Int.mul_emod, ih, Int.emod_emod_of_dvd _ dvd_rfl,
      ← Int.mul_emod]

lemma DynamicModulus.one_eq {M : Int} (hM : 1 ≤ M) :
    DynamicModulus.one M = 1 % M :=
  Int.tmod_eq_emod (by norm_num) (by omega)

lemma DynamicModulus.mul_emod {M x y : Int} (hM : 0 ≤ M) (hx : 0 ≤ x) (hy : 0 ≤ y) :
    DynamicModulus.mul M x y = (x * y) % M :=
  Int.tmod_eq_emod (mul_nonneg hx hy) hM

lemma DynamicModulus.add_emod_eq {M x y : Int} (hM : 0 ≤ M) (hx : 0 ≤ x) (hy : 0 ≤ y) :
    DynamicModulus.add M x y = (x + y) % M :=
  Int.tmod_eq_emod (by omega) hM

lemma DynamicModulus.powGo_emod {M : Int} (hM : 1 ≤ M) :
    ∀ fuel (y : Nat) (x z : Int), y < fuel → 0 ≤ x → 0 ≤ z → z < M →
      DynamicModulus.powGo fuel M x z y = (z * x ^ y) % M := by
  intro fuel
  induction fuel with
  | zero => intro y x z hy; omega
  | succ fuel ih =>
    intro y x z hy hx hz hzM
    by_cases h0 : y = 0
    · subst h0
      simp [DynamicModulus.powGo, Int.emod_eq_of_lt hz hzM]
    · have hxx : DynamicModulus.mul M x x = (x * x) % M :=
        DynamicModulus.mul_emod (by omega) hx hx
      have hxx0 : (0 : Int) ≤ (x * x) % M := Int.emod_nonneg _ (by omega)
      by_cases hpar : y % 2 = 1
      · have hzx : DynamicModulus.mul M z x = (z * x) % M :=
          DynamicModulus.mul_emod (by omega) hz hx
        have hstep : DynamicModulus.powGo (fuel + 1) M x z y =
            DynamicModulus.powGo fuel M ((x * x) % M) ((z * x) % M) (y / 2) := by
          simp [DynamicModulus.powGo, h0, hpar, hzx, hxx]
        rw [hstep, ih (y / 2) _ _ (by omega) hxx0 (Int.emod_nonneg _ (by omega))
          (Int.emod_lt_of_pos _ (by omega))]
        rw [Int.mul_emod, int_pow_emod, Int.emod_emod_of_dvd _ dvd_rfl, ← Int.mul_emod]
        rw [pow_split x y, hpar, pow_one, ← mul_assoc]
      · have hstep : DynamicModulus.powGo (fuel + 1) M x z y =
            DynamicModulus.powGo fuel M ((x * x) % M) z (y / 2) := by
          simp [DynamicModulus.powGo, h0, hpar, hxx]
        rw [hstep, ih (y / 2) _ _ (by omega) hxx0 hz hzM]
        conv_lhs => rw [show z = z % M from (Int.emod_eq_of_lt hz hzM).symm]
        rw [Int.mul_emod, int_pow_emod, Int.emod_emod_of_dvd _ dvd_rfl, ← Int.mul_emod]
        rw [pow_split x y, (by omega : y % 2 = 0), pow_zero, one_mul]

lemma DynamicModulus.pow_emod {M x : Int} (hM : 1 ≤ M) (hx : 0 ≤ x) (y : Nat) :
    DynamicModulus.pow M x y = x ^ y % M := by
  have h1 : DynamicModulus.one M = 1 % M := DynamicModulus.one_eq hM
  have h := DynamicModulus.powGo_emod hM (y + 1) y x (DynamicModulus.one M)
    (by omega) hx (h1 ▸ Int.emod_nonneg _ (by omega)) (h1 ▸ Int.emod_lt_of_pos _ (by omega))
  rw [DynamicModulus.pow, h, h1, Int.mul_emod, Int.emod_emod_of_dvd _ dvd_rfl,
    ← Int.mul_emod, one_mul]

lemma int_neg_tmod (a b : Int) : (-a).tmod b = -(a.tmod b) := by
  simp [Int.tmod_def, Int.neg_tdiv]
  ring

lemma DynamicModulus.rem_congruent (M x : Int) : M ∣ x - DynamicModulus.rem M x := by
  refine ⟨x.tdiv M, ?_⟩
  have h := Int.tdiv_add_tmod x M
  unfold DynamicModulus.rem
  omega

lemma DynamicModulus.rem_abs_lt {M : Int} (hM : 1 ≤ M) (x : Int) :
    |DynamicModulus.rem M x| < M := by
  unfold DynamicModulus.rem
  rcases le_or_lt 0 x with hx | hx
  · rw [Int.tmod_eq_emod hx (by omega)]
    have h1 := Int.emod_nonneg x (show M ≠ 0 by omega)
    have h2 := Int.emod_lt_of_pos x (show 0 < M by omega)
    rw [abs_of_nonneg h1]
    exact h2
  · have hx' : x = -(-x) := by ring
    rw [hx', int_neg_tmod, Int.tmod_eq_emod (by omega) (by omega)]
    have h1 := Int.emod_nonneg (-x) (show M ≠ 0 by omega)
    have h2 := Int.emod_lt_of_pos (-x) (show 0 < M by omega)
    rw [abs_neg, abs_of_nonneg h1]
    exact h2

lemma DynamicModulus.rem_of_nonneg {M x : Int} (hM : 1 ≤ M) (hx : 0 ≤ x) :
    0 ≤ DynamicModulus.rem M x ∧ DynamicModulus.rem M x < M := by
  unfold DynamicModulus.rem
  rw [Int.tmod_eq_emod hx (by omega)]
  exact ⟨Int.emod_nonneg x (by omega), Int.emod_lt_of_pos x (by omega)⟩

/-! ### C4: behaviour of `rem` -/

/-- C4 counterexample: the claim says `rem` always lands in `[0, M)`, even
for negative inputs to the dynamic variant; but Rust `%` truncates toward
zero, so `DynamicModulus::<i64>::rem(-7)` with modulus `5` returns `-2`,
which is not in `[0, 5)`. -/
theorem c4_counterexample :
    DynamicModulus.rem 5 (-7) = -2 ∧ ¬ (0 ≤ (-2 : Int)) := by decide

/-- C4 amended: the static variant returns `some (x % M)`, which is reduced
and congruent to `x`, for every `u64` input; the dynamic variant returns
the truncated remainder, which is congruent to `x` and of magnitude below
`M`, and lies in `[0, M)` exactly when the input is non-negative. -/
theorem c4_theorem :
    (∀ M x : Nat, 1 ≤ M →
      ∃ r, StaticModulus64.rem M x = some r ∧ r < M ∧ x % M = r) ∧
    (∀ M x : Int, 1 ≤ M →
      M ∣ x - DynamicModulus.rem M x ∧ |DynamicModulus.rem M x| < M ∧
      (0 ≤ x → 0 ≤ DynamicModulus.rem M x ∧ DynamicModulus.rem M x < M)) := by
  constructor
  · intro M x hM
    refine ⟨x % M, ?_, Nat.mod_lt _ (by omega), rfl⟩
    simp [StaticModulus64.rem, show M ≠ 0 by omega]
  · intro M x hM
    exact ⟨DynamicModulus.rem_congruent M x, DynamicModulus.rem_abs_lt hM x,
      fun hx => DynamicModulus.rem_of_nonneg hM hx⟩

/-- C4 witness: the amended statement applied at `M = 5`, `x = 7` (static)
and `M = 5`, `x = 7` (dynamic). -/
theorem c4_witness :
    (∃ r, StaticModulus64.rem 5 7 = some r ∧ r < 5 ∧ 7 % 5 = r) ∧
    (5 : Int) ∣ 7 - DynamicModulus.rem 5 7 :=
  ⟨c4_theorem.1 5 7 (by norm_num), (c4_theorem.2 5 7 (by norm_num)).1⟩

/-! ### C5: the static `add` and 64-bit overflow -/

/-- C5 counterexample: for `M = 2^63 + 1` and the reduced operands
`x = y = 2^63`, the `u64` sum wraps to `0`, and `add` returns `some 0`,
while `(x + y) mod M = 2^63 - 1`.  The claim asserts the computation never
overflows the 64-bit representation even for `M > 2^63`; it does. -/
theorem c5_counterexample :
    StaticModulus64.add (2 ^ 63 + 1) (2 ^ 63) (2 ^ 63) = some 0 ∧
    (2 ^ 63 + 2 ^ 63) % (2 ^ 63 + 1) = 2 ^ 63 - 1 ∧
    (0 : Nat) ≠ 2 ^ 63 - 1 := by decide

/-- C5 amended: for every modulus `M ≤ 2^63` and reduced operands the sum
`x + y` stays below `2^64`, no wrap occurs, and `add` returns exactly
`(x + y) mod M`. -/
theorem c5_theorem (M x y : Nat) (hM : M ≤ 2 ^ 63) (hx : x < M) (hy : y < M) :
    StaticModulus64.add M x y = some ((x + y) % M) ∧ x + y < 2 ^ 64 :=
  ⟨StaticModulus64.add_eq hM hx hy, by omega⟩

/-- C5 witness: the amended statement applied at `M = 2^63`, `x = y = 2^63 - 1`. -/
theorem c5_witness :
    StaticModulus64.add (2 ^ 63) (2 ^ 63 - 1) (2 ^ 63 - 1) =
      some ((2 ^ 63 - 1 + (2 ^ 63 - 1)) % 2 ^ 63) :=
  (c5_theorem (2 ^ 63) (2 ^ 63 - 1) (2 ^ 63 - 1) (by norm_num) (by norm_num)
    (by norm_num)).1

/-! ### C9: the `pow` laws -/

/-- C9 counterexample: for the static variant with `M = 1` the value
`x = 0` is reduced, but `pow(0, 1)` multiplies into the accumulator
`z = one() = 1`, and `mul` asserts `z < M`, which fails; `pow(x, 1)`
panics instead of returning `x`. -/
theorem c9_counterexample :
    (0 : Nat) < 1 ∧ StaticModulus64.pow 1 0 1 = none := by decide

/-- C9 amended: for the static variant with `M > 1` and the dynamic
variant with `M ≥ 1` (where the accumulator stays below `M`), every
reduced `x` satisfies `pow(x,0) = one()`, `pow(x,1) = x`, and
`pow(x, a+b) = mul(pow(x,a), pow(x,b))`; for the static variant with
`M = 1` the `mul` assertion aborts `pow` for any positive exponent. -/
theorem c9_theorem :
    (∀ M x : Nat, 1 < M → x < M →
      StaticModulus64.pow M x 0 = some (StaticModulus64.one M) ∧
      StaticModulus64.pow M x 1 = some x ∧
      ∀ a b : Nat, ∃ pa pb, StaticModulus64.pow M x a = some pa ∧
        StaticModulus64.pow M x b = some pb ∧
        StaticModulus64.pow M x (a + b) = StaticModulus64.mul M pa pb) ∧
    (∀ M x : Int, 1 ≤ M → 0 ≤ x → x < M →
      DynamicModulus.pow M x 0 = DynamicModulus.one M ∧
      DynamicModulus.pow M x 1 = x ∧
      ∀ a b : Nat, DynamicModulus.pow M x (a + b) =
        DynamicModulus.mul M (DynamicModulus.pow M x a) (DynamicModulus.pow M x b)) := by
  constructor
  · intro M x hM hx
    refine ⟨?_, ?_, ?_⟩
    · rw [StaticModulus64.pow_eq hM hx 0, pow_zero, Nat.mod_eq_of_lt hM]
      rfl
    · rw [StaticModulus64.pow_eq hM hx 1, pow_one, Nat.mod_eq_of_lt hx]
    · intro a b
      refine ⟨x ^ a % M, x ^ b % M, StaticModulus64.pow_eq hM hx a,
        StaticModulus64.pow_eq hM hx b, ?_⟩
      rw [StaticModulus64.pow_eq hM hx (a + b),
        StaticModulus64.mul_eq (Nat.mod_lt _ (by omega)) (Nat.mod_lt _ (by omega)),
        pow_add, Nat.mul_mod]
  · intro M x hM hx hxM
    refine ⟨?_, ?_, ?_⟩
    · rw [DynamicModulus.pow_emod hM hx 0, pow_zero, DynamicModulus.one_eq hM]
    · rw [DynamicModulus.pow_emod hM hx 1, pow_one, Int.emod_eq_of_lt hx hxM]
    · intro a b
      rw [DynamicModulus.pow_emod hM hx (a + b), DynamicModulus.pow_emod hM hx a,
        DynamicModulus.pow_emod hM hx b,
        DynamicModulus.mul_emod (by omega) (Int.emod_nonneg _ (by omega))
          (Int.emod_nonneg _ (by omega)),
        pow_add, Int.mul_emod]

/-- C9 witness: the amended statement applied at `M = 5`, `x = 3`. -/
theorem c9_witness :
    StaticModulus64.pow 5 3 1 = some 3 ∧ DynamicModulus.pow 5 3 1 = 3 :=
  ⟨(c9_theorem.1 5 3 (by norm_num) (by norm_num)).2.1,
   (c9_theorem.2 5 3 (by norm_num) (by norm_num) (by norm_num)).2.1⟩

/-! ### C2: the fixed-width Miller–Rabin primality test -/

/-- C2: the boundary values behave exactly as the spec lists, but the
witness set `{2, 7, 61}` does not decide primality over the full 64-bit
range: `4759123141 = 48781 * 97561` is composite, yet `is_prime` accepts
it (it is the smallest strong pseudoprime to the bases `2`, `7` and `61`
simultaneously). -/
theorem c2_theorem :
    is_prime 0 = false ∧ is_prime 1 = false ∧ is_prime 2 = true ∧
    is_prime 4 = false ∧ is_prime 998244353 = true ∧
    is_prime 1000000007 = true ∧ is_prime 1000000008 = false ∧
    is_prime 4759123141 = true ∧ 4759123141 = 48781 * 97561 ∧
    (1 : Nat) < 48781 ∧ (1 : Nat) < 97561 := by decide

/-! ### C7: `primitive_root` lookup table and verification at `998244353` -/

/-- C7: the lookup table returns `1, 3, 3, 3, 11, 3` for the six
well-known moduli, and for `M = 998244353` the returned `3` satisfies
`3^(M-1) mod M = 1` while `3^((M-1)/p) mod M ≠ 1` for every prime factor
`p` of `M - 1 = 2^23 * 7 * 17`. -/
theorem c7_theorem :
    primitive_root 2 = 1 ∧ primitive_root 65537 = 3 ∧
    primitive_root 167772161 = 3 ∧ primitive_root 469762049 = 3 ∧
    primitive_root 754974721 = 11 ∧ primitive_root 998244353 = 3 ∧
    mod_pow 3 998244352 998244353 = 1 ∧
    ∀ p : Nat, p.Prime → p ∣ 998244352 →
      mod_pow 3 (998244352 / p) 998244353 ≠ 1 := by
  refine ⟨by decide, by decide, by decide, by decide, by decide, by decide,
    by decide, ?_⟩
  intro p hp hdvd
  have hfact : (998244352 : Nat) = 2 ^ 23 * (7 * 17) := by norm_num
  rw [hfact] at hdvd
  rcases (Nat.Prime.dvd_mul hp).mp hdvd with h | h
  · have h2 : p ∣ 2 := hp.dvd_of_dvd_pow h
    have : p = 2 := (Nat.prime_dvd_prime_iff_eq hp (by norm_num)).mp h2
    subst this
    decide
  · rcases (Nat.Prime.dvd_mul hp).mp h with h7 | h17
    · have : p = 7 := (Nat.prime_dvd_prime_iff_eq hp (by norm_num)).mp h7
      subst this
      decide
    · have : p = 17 := (Nat.prime_dvd_prime_iff_eq hp (by norm_num)).mp h17
      subst this
      decide

/-- C7 witness: the universally quantified part applied at the prime
factor `p = 7`. -/
theorem c7_witness : mod_pow 3 (998244352 / 7) 998244353 ≠ 1 :=
  c7_theorem.2.2.2.2.2.2.2 7 (by norm_num) (by norm_num)

/-! ### C10: the static mod-mismatch branch is unreachable -/

/-- C10: the derived equality of the field-less `StaticModulus64<M>` is
constantly `true`, so the four binary operators (and thereby their
in-place forms, which run the same check and delegate to the same
operation) never return the `"mod mismatch"` error for two values of one
static-modulus type, while the dynamic wrapper does reach it for two
distinct runtime moduli. -/
theorem c10_theorem :
    (∀ (M : Nat) (a b : ModInt M),
      (∃ r, ModInt.add a b = Except.ok r) ∧
      (∃ r, ModInt.sub a b = Except.ok r) ∧
      (∃ r, ModInt.mul a b = Except.ok r) ∧
      (∃ r, ModInt.div a b = Except.ok r)) ∧
    ModIntDyn.add ⟨1, 3⟩ ⟨1, 5⟩ = Except.error ModIntError.modMismatch := by
  constructor
  · intro M a b
    exact ⟨⟨_, rfl⟩, ⟨_, rfl⟩, ⟨_, rfl⟩, ⟨_, rfl⟩⟩
  · simp [ModIntDyn.add]

/-! ### Counterexamples for C1, C3 and C6 -/

/-- C1 counterexample: `x = 2` is reduced and coprime with
`M = 2^64 - 1`, yet the static `inv` aborts instead of producing an
inverse: `M as i64` wraps to `-1`, the truncated-division Euclid loop
ends with `s.0 = -1`, and the `s.0 == 1` assertion fails. -/
theorem c1_counterexample :
    Nat.gcd 2 (2 ^ 64 - 1) = 1 ∧ 0 < 2 ∧ 2 < 2 ^ 64 - 1 ∧
    StaticModulus64.inv (2 ^ 64 - 1) 2 = none := by decide

/-- C3 counterexample: the dynamic `neg` on the reduced value `1` with
modulus `5` returns `-1 % 5 = -1` (Rust `%` truncates toward zero), which
is not a reduced value. -/
theorem c3_counterexample :
    DynamicModulus.neg 5 1 = -1 ∧ ((-1 : Int) < 0) := by decide

/-- C6 counterexample: for the dynamic variant with `M = 4` and the
reduced `x = 2` (so `gcd(x, M) = 2 ≠ 1`), `inv` has no `gcd` assertion
and returns the value `1` instead of halting. -/
theorem c6_counterexample :
    Int.gcd 2 4 = 2 ∧ DynamicModulus.inv 4 2 = some 1 := by decide

/-! ### C8: the dynamic trial-division primality test -/

lemma DynamicModulus.one_of_two_le {M : Int} (hM : 2 ≤ M) :
    DynamicModulus.one M = 1 := by
  unfold DynamicModulus.one
  rw [Int.tmod_eq_emod (by norm_num) (by omega), Int.emod_eq_of_lt (by norm_num) (by omega)]

lemma DynamicModulus.isPrimeGo_eq {M : Int} (hM : 2 ≤ M) :
    ∀ fuel (i : Int), 2 ≤ i → M.natAbs + 2 ≤ fuel + i.toNat → 1 ≤ fuel →
      ∃ b, DynamicModulus.isPrimeGo fuel M i = some b ∧
        (b = true ↔ ∀ j : Int, i ≤ j → j * j ≤ M → ¬ (j ∣ M)) := by
  intro fuel
  induction fuel with
  | zero => intro i h1 h2 h3; omega
  | succ fuel ih =>
    intro i h2i hsuff _
    by_cases hloop : i * i ≤ M
    · have hine : ¬ (i = 0) := by omega
      by_cases hdvd : M.tmod i = 0
      · refine ⟨false, ?_, ?_⟩
        · simp [DynamicModulus.isPrimeGo, hloop, hine, hdvd, DynamicModulus.zero]
        · constructor
          · intro h
            exact (Bool.false_ne_true h).elim
          · intro h
            exact ((h i le_rfl hloop) (Int.dvd_of_tmod_eq_zero hdvd)).elim
      · have hii : i ≤ i * i := le_mul_of_one_le_left (by omega) (by omega)
        have hiM : i ≤ M := le_trans hii hloop
        have hitoNat : i.toNat ≤ M.natAbs := by omega
        have hfuel1 : 1 ≤ fuel := by omega
        obtain ⟨b, hb, hiff⟩ := ih (i + 1) (by omega) (by omega) hfuel1
        have hstep : DynamicModulus.isPrimeGo (fuel + 1) M i =
            DynamicModulus.isPrimeGo fuel M (i + 1) := by
          simp [DynamicModulus.isPrimeGo, hloop, hine, hdvd, DynamicModulus.zero,
            DynamicModulus.one_of_two_le hM]
        refine ⟨b, by rw [hstep, hb], ?_⟩
        rw [hiff]
        constructor
        · intro h j hj hjj
          rcases eq_or_lt_of_le hj with rfl | hlt
          · exact fun hd => hdvd (Int.tmod_eq_zero_of_dvd hd)
          · exact h j (by omega) hjj
        · intro h j hj hjj
          exact h j (by omega) hjj
    · refine ⟨true, by simp [DynamicModulus.isPrimeGo, hloop], ?_⟩
      simp only [true_iff]
      intro j hj hjj hd
      have : i * i ≤ j * j := mul_le_mul hj hj (by omega) (by omega)
      omega

lemma DynamicModulus.is_prime_eq {M : Int} (hM : 2 ≤ M) :
    ∃ b, DynamicModulus.is_prime M = some b ∧
      (b = true ↔ ∀ j : Int, 2 ≤ j → j * j ≤ M → ¬ (j ∣ M)) := by
  have hone : DynamicModulus.one M = 1 := DynamicModulus.one_of_two_le hM
  obtain ⟨b, hb, hiff⟩ :=
    DynamicModulus.isPrimeGo_eq hM (M.natAbs + 2) 2 (by norm_num) (by omega) (by omega)
  refine ⟨b, ?_, hiff⟩
  rw [DynamicModulus.is_prime, if_neg (by omega : ¬ M = DynamicModulus.one M), hone]
  norm_num
  exact hb

/-- C8: the claim is right about trial division for `M ≥ 2`, but for
`M = 1` the guard `self.modulus() == self.one()` compares `1` with
`one() = 1 % 1 = 0` and fails, so the loop starts at
`i = one() + one() = 0` and `M % i` divides by zero: the code panics
instead of returning `false`. -/
theorem c8_theorem :
    DynamicModulus.is_prime 1 = none ∧
    ∀ M : Int, 2 ≤ M → ∃ b, DynamicModulus.is_prime M = some b ∧
      (b = true ↔ ∀ j : Int, 2 ≤ j → j * j ≤ M → ¬ (j ∣ M)) :=
  ⟨by decide, fun _ hM => DynamicModulus.is_prime_eq hM⟩

/-- C8 witness: the trial-division characterisation applied at `M = 9`. -/
theorem c8_witness :
    ∃ b, DynamicModulus.is_prime 9 = some b ∧
      (b = true ↔ ∀ j : Int, 2 ≤ j → j * j ≤ 9 → ¬ (j ∣ 9)) :=
  c8_theorem.2 9 (by norm_num)

/-! ### The extended-Euclid loop: invariants and correctness

Throughout a run started from `s = (M, 0)`, `t = (x, 1)` with
`0 < x < M` the loop maintains: `0 ≤ t.0 < s.0 ≤ M`; both first components
are congruent to (second component) `* x` modulo `M`; the two second
components have opposite signs; and the determinant-style size identity
`s.0 * |t.1| + t.0 * |s.1| = M`, which bounds every coefficient by `M` and
in particular keeps all `i64` intermediates wrap-free when `M < 2^63`. -/

lemma abs_lin_step {s1 t1 u : Int}
    (h6 : (0 ≤ s1 ∧ t1 ≤ 0) ∨ (s1 ≤ 0 ∧ 0 ≤ t1)) (hu : 0 ≤ u) :
    |s1 - t1 * u| = |s1| + u * |t1| := by
  rcases h6 with ⟨hs1, ht1⟩ | ⟨hs1, ht1⟩
  · have h1 : 0 ≤ s1 - t1 * u := by nlinarith
    rw [abs_of_nonneg h1, abs_of_nonneg hs1, abs_of_nonpos ht1]
    ring
  · have h1 : s1 - t1 * u ≤ 0 := by nlinarith
    rw [abs_of_nonpos h1, abs_of_nonpos hs1, abs_of_nonneg ht1]
    ring

lemma sign_step {s1 t1 u : Int}
    (h6 : (0 ≤ s1 ∧ t1 ≤ 0) ∨ (s1 ≤ 0 ∧ 0 ≤ t1)) (hu : 0 ≤ u) :
    (0 ≤ t1 ∧ s1 - t1 * u ≤ 0) ∨ (t1 ≤ 0 ∧ 0 ≤ s1 - t1 * u) := by
  rcases h6 with ⟨hs1, ht1⟩ | ⟨hs1, ht1⟩
  · exact Or.inr ⟨ht1, by nlinarith⟩
  · exact Or.inl ⟨ht1, by nlinarith⟩

lemma int_gcd_step {a b : Int} (ha : 0 ≤ a) (hb : 0 < b) :
    Int.gcd a b = Int.gcd b (a % b) := by
  obtain ⟨A, rfl⟩ := Int.eq_ofNat_of_zero_le ha
  obtain ⟨B, rfl⟩ := Int.eq_ofNat_of_zero_le (le_of_lt hb)
  have h1 : ((A : Int)) % (B : Int) = ((A % B : Nat) : Int) := (Int.natCast_mod A B).symm
  rw [h1, Int.gcd_natCast_natCast, Int.gcd_natCast_natCast, Nat.gcd_comm,
    Nat.gcd_rec B A, Nat.gcd_comm]

lemma le_of_mul_le_one_le (a t M : Int) (h : a * t ≤ M) (ha : 0 ≤ a) (ht : 1 ≤ t) :
    a ≤ M := by nlinarith [mul_nonneg ha (sub_nonneg.mpr ht)]

lemma xgcd_main (Mz x0 : Int) :
    ∀ (fuel : Nat) (s0 s1 t0 t1 : Int),
      t0.toNat < fuel →
      0 ≤ t0 → t0 < s0 → s0 ≤ Mz →
      Mz ∣ s0 - s1 * x0 → Mz ∣ t0 - t1 * x0 →
      ((0 ≤ s1 ∧ t1 ≤ 0) ∨ (s1 ≤ 0 ∧ 0 ≤ t1)) →
      s0 * |t1| + t0 * |s1| = Mz →
      |s1| + s0 ≤ Mz →
      ∃ a : Int,
        xgcdGo fuel s0 s1 t0 t1 = some (((Int.gcd s0 t0 : Nat) : Int), a) ∧
        Mz ∣ ((Int.gcd s0 t0 : Nat) : Int) - a * x0 ∧
        |a| + ((Int.gcd s0 t0 : Nat) : Int) ≤ Mz ∧
        (Mz ≤ 2 ^ 63 - 1 → xgcdGo64 fuel s0 s1 t0 t1 = xgcdGo fuel s0 s1 t0 t1) := by
  intro fuel
  induction fuel with
  | zero => intro s0 s1 t0 t1 hf; omega
  | succ fuel ih =>
    intro s0 s1 t0 t1 hf h1 h2 h3 h4 h5 h6 h7 h8
    by_cases ht : t0 = 0
    · subst ht
      have hs0 : 0 < s0 := by omega
      have hgcd : ((Int.gcd s0 0 : Nat) : Int) = s0 := by
        rw [Int.gcd_zero_right, Int.natAbs_of_nonneg (le_of_lt hs0)]
      refine ⟨s1, ?_, ?_, ?_, ?_⟩
      · simp only [hgcd]
        simp [xgcdGo]
      · rw [hgcd]; exact h4
      · rw [hgcd]; exact h8
      · intro _; simp [xgcdGo, xgcdGo64]
    · have ht0 : 0 < t0 := lt_of_le_of_ne h1 (Ne.symm ht)
      have hs0 : 0 < s0 := lt_trans ht0 h2
      obtain ⟨u, hu⟩ : ∃ u, s0 / t0 = u := ⟨_, rfl⟩
      have htdiv : s0.tdiv t0 = u := by
        rw [Int.tdiv_eq_ediv (le_of_lt hs0) (le_of_lt ht0), hu]
      have hu0 : 0 ≤ u := hu ▸ Int.ediv_nonneg (le_of_lt hs0) (le_of_lt ht0)
      have hu1 : 1 ≤ u := hu ▸ (Int.le_ediv_iff_mul_le ht0).mpr (by omega)
      have huS : u ≤ s0 := hu ▸ Int.ediv_le_self t0 (le_of_lt hs0)
      obtain ⟨r, hr⟩ : ∃ r, s0 - t0 * u = r := ⟨_, rfl⟩
      have hr_emod : r = s0 % t0 := by rw [← hr, ← hu, Int.emod_def]
      have hr0 : 0 ≤ r := hr_emod ▸ Int.emod_nonneg s0 (by omega)
      have hrt : r < t0 := hr_emod ▸ Int.emod_lt_of_pos s0 ht0
      obtain ⟨w, hw⟩ : ∃ w, s1 - t1 * u = w := ⟨_, rfl⟩
      have habs : |w| = |s1| + u * |t1| := hw ▸ abs_lin_step h6 hu0
      have hsg : (0 ≤ t1 ∧ w ≤ 0) ∨ (t1 ≤ 0 ∧ 0 ≤ w) := hw ▸ sign_step h6 hu0
      have h7' : t0 * |w| + r * |t1| = Mz := by
        rw [habs, ← hr]
        linear_combination h7
      have h8' : |t1| + t0 ≤ Mz := by
        by_cases ht1z : t1 = 0
        · subst ht1z
          simp only [abs_zero, zero_add]
          omega
        · have habs1 : 1 ≤ |t1| := Int.one_le_abs ht1z
          nlinarith [mul_nonneg (sub_nonneg.mpr (by omega : t0 + 1 ≤ s0)) (abs_nonneg t1),
            mul_nonneg (le_of_lt ht0) (sub_nonneg.mpr habs1),
            mul_nonneg (le_of_lt ht0) (abs_nonneg s1)]
      have h5' : Mz ∣ r - w * x0 := by
        have heq : r - w * x0 = (s0 - s1 * x0) - u * (t0 - t1 * x0) := by
          rw [← hr, ← hw]; ring
        rw [heq]
        exact dvd_sub h4 (Dvd.dvd.mul_left h5 u)
      have hgstep : Int.gcd s0 t0 = Int.gcd t0 r := by
        rw [hr_emod]
        exact int_gcd_step (le_of_lt hs0) ht0
      have hfuel' : r.toNat < fuel := by omega
      obtain ⟨a, ha_eq, ha_dvd, ha_bound, ha_wrap⟩ :=
        ih t0 t1 r w hfuel' hr0 hrt (by omega) h5 h5' hsg h7' h8'
      have hstep : xgcdGo (fuel + 1) s0 s1 t0 t1 = xgcdGo fuel t0 t1 r w := by
        simp only [xgcdGo, if_neg ht, htdiv, hr, hw]
      have hmulS : t0 * u ≤ s0 := by omega
      have hwrap_step : Mz ≤ 2 ^ 63 - 1 →
          xgcdGo64 (fuel + 1) s0 s1 t0 t1 = xgcdGo64 fuel t0 t1 r w := by
        intro hMle
        have hb_u : wrap64 (s0.tdiv t0) = u := by
          rw [htdiv]
          exact wrap64_eq_self (by omega) (by omega)
        have hmul0 : 0 ≤ t0 * u := mul_nonneg (le_of_lt ht0) hu0
        have hb_t0u : wrap64 (t0 * u) = t0 * u :=
          wrap64_eq_self (by omega) (by omega)
        have hb_r : wrap64 (s0 - wrap64 (t0 * u)) = r := by
          rw [hb_t0u, hr]
          exact wrap64_eq_self (by omega) (by omega)
        have hs0t1 : s0 * |t1| ≤ Mz := by
          nlinarith [mul_nonneg (le_of_lt ht0) (abs_nonneg s1)]
        have ht1u_le : |t1| * u ≤ Mz := by
          refine le_of_mul_le_one_le _ t0 _ ?_ (mul_nonneg (abs_nonneg t1) hu0) (by omega)
          calc |t1| * u * t0 = (t0 * u) * |t1| := by ring
            _ ≤ s0 * |t1| := mul_le_mul_of_nonneg_right hmulS (abs_nonneg t1)
            _ ≤ Mz := hs0t1
        have ht1u_abs : |t1 * u| ≤ Mz := by
          rw [abs_mul, abs_of_nonneg hu0]
          exact ht1u_le
        have hb_t1u : wrap64 (t1 * u) = t1 * u := by
          have := abs_le.mp ht1u_abs
          exact wrap64_eq_self (by omega) (by omega)
        have hw_abs : |w| ≤ Mz := by
          refine le_of_mul_le_one_le _ t0 _ ?_ (abs_nonneg w) (by omega)
          have hrr : 0 ≤ r * |t1| := mul_nonneg hr0 (abs_nonneg t1)
          nlinarith [h7']
        have hb_w : wrap64 (s1 - wrap64 (t1 * u)) = w := by
          have := abs_le.mp hw_abs
          rw [hb_t1u, hw]
          exact wrap64_eq_self (by omega) (by omega)
        simp only [xgcdGo64, if_neg ht, hb_u, hb_r, hb_w]
      refine ⟨a, ?_, ?_, ?_, ?_⟩
      · rw [hstep, hgstep]
        exact ha_eq
      · rw [hgstep]
        exact ha_dvd
      · rw [hgstep]
        exact ha_bound
      · intro hMle
        rw [hwrap_step hMle, hstep]
        exact ha_wrap hMle

lemma StaticModulus64.inv_unfold {M x : Nat} (hx : x < M) (hx0 : ¬ x = 0) {g a : Int}
    (hrun : xgcdGo64 u64Size (wrap64 (M : Int)) 0 (wrap64 (x : Int)) 1 = some (g, a)) :
    StaticModulus64.inv M x =
      if g = 1 then
        some (toU64 (if a < 0 then wrap64 (a + wrap64 ((M / toU64 g : Nat) : Int)) else a))
      else none := by
  unfold StaticModulus64.inv
  rw [if_pos hx, if_neg hx0, hrun]

/-- Characterisation of the static `inv` for moduli below `2^63` (where the
`i64` intermediates cannot wrap): it returns a reduced inverse when
`gcd(M, x) = 1` and aborts at the `s.0 == 1` assertion otherwise. -/
lemma StaticModulus64.inv_spec {M x : Nat} (hM1 : 1 < M) (hM : M < 2 ^ 63)
    (hx0 : 0 < x) (hx : x < M) :
    (Nat.gcd M x = 1 →
      ∃ r, StaticModulus64.inv M x = some r ∧ r < M ∧ r * x % M = 1) ∧
    (Nat.gcd M x ≠ 1 → StaticModulus64.inv M x = none) := by
  have hMw : wrap64 ((M : Nat) : Int) = (M : Int) :=
    wrap64_eq_self (by omega) (by omega)
  have hxw : wrap64 ((x : Nat) : Int) = (x : Int) :=
    wrap64_eq_self (by omega) (by omega)
  obtain ⟨a, ha_eq, ha_dvd, ha_bound, ha_wrap⟩ :=
    xgcd_main (M : Int) (x : Int) u64Size (M : Int) 0 (x : Int) 1
      (by unfold u64Size; omega)
      (by omega) (by omega) (le_refl _)
      ⟨1, by ring⟩
      (by simp)
      (Or.inr ⟨le_refl 0, by norm_num⟩)
      (by simp)
      (by simp)
  rw [Int.gcd_natCast_natCast] at ha_eq ha_dvd ha_bound
  have hwrap_eq : xgcdGo64 u64Size (wrap64 (M : Int)) 0 (wrap64 (x : Int)) 1 =
      some (((Nat.gcd M x : Nat) : Int), a) := by
    rw [hMw, hxw, ha_wrap (by omega), ha_eq]
  have hunfold := StaticModulus64.inv_unfold hx (by omega) hwrap_eq
  constructor
  · intro hg
    rw [hg] at hunfold ha_dvd ha_bound
    push_cast at ha_dvd ha_bound
    rw [Nat.cast_one] at hunfold
    rw [if_pos rfl] at hunfold
    have htoU1 : toU64 (1 : Int) = 1 := by decide
    rw [htoU1, Nat.div_one] at hunfold
    have hbd := abs_le.mp (show |a| ≤ (M : Int) - 1 by omega)
    have hdvd' : (M : Int) ∣ a * (x : Int) - 1 := by
      have := (dvd_neg).mpr ha_dvd
      simpa [neg_sub] using this
    -- the returned coefficient, normalised into `[0, M)`
    have hmain : ∀ b : Int, 0 ≤ b → b < (M : Int) → (M : Int) ∣ b * (x : Int) - 1 →
        toU64 b < M ∧ toU64 b * x % M = 1 := by
      intro b hb0 hbM hbdvd
      have hcast : ((toU64 b : Nat) : Int) = b := toU64_eq hb0 (by omega)
      constructor
      · omega
      · have hmod : ((toU64 b * x : Nat) : Int) % (M : Int) = 1 := by
          have h1 : (1 : Int) % (M : Int) = 1 :=
            Int.emod_eq_of_lt (by norm_num) (by omega)
          have h2 : (1 : Int) ≡ ((toU64 b : Nat) : Int) * (x : Int) [ZMOD (M : Int)] :=
            Int.modEq_iff_dvd.mpr (by rw [hcast]; exact hbdvd)
          have h3 := h2.symm
          unfold Int.ModEq at h3
          push_cast
          rw [h3, h1]
        have hcast2 := Int.natCast_mod (toU64 b * x) M
        omega
    by_cases haneg : a < 0
    · have hwa : wrap64 (a + wrap64 ((M : Nat) : Int)) = a + (M : Int) := by
        rw [hMw]
        exact wrap64_eq_self (by omega) (by omega)
      rw [if_pos haneg, hwa] at hunfold
      have hdvd2 : (M : Int) ∣ (a + (M : Int)) * (x : Int) - 1 := by
        have heq : (a + (M : Int)) * (x : Int) - 1 =
            (a * (x : Int) - 1) + (M : Int) * (x : Int) := by ring
        rw [heq]
        exact dvd_add hdvd' (Dvd.intro _ rfl)
      obtain ⟨hlt, hmod⟩ := hmain (a + (M : Int)) (by omega) (by omega) hdvd2
      exact ⟨_, hunfold, hlt, hmod⟩
    · rw [if_neg haneg] at hunfold
      obtain ⟨hlt, hmod⟩ := hmain a (by omega) (by omega) hdvd'
      exact ⟨_, hunfold, hlt, hmod⟩
  · intro hg
    rw [if_neg (by exact_mod_cast hg)] at hunfold
    exact hunfold

lemma DynamicModulus.inv_reduce {M x : Int} (hx0 : ¬ x = DynamicModulus.zero M) {g a : Int}
    (hrun : xgcdGo (x.natAbs + 1) M (DynamicModulus.zero M) x (DynamicModulus.one M) =
      some (g, a)) :
    DynamicModulus.inv M x =
      some (if a < DynamicModulus.zero M then DynamicModulus.add M a (M.tdiv g) else a) := by
  unfold DynamicModulus.inv
  rw [if_neg hx0, hrun]

/-- Characterisation of the dynamic `inv`: for any reduced non-zero `x` it
returns a value (there is no `gcd` assertion), and when `gcd(M, x) = 1`
that value is the reduced modular inverse. -/
lemma DynamicModulus.inv_characterisation {M x : Int} (hM : 1 ≤ M) (hx0 : 0 < x) (hx : x < M) :
    ∃ r, DynamicModulus.inv M x = some r ∧
      (Int.gcd M x = 1 → 0 ≤ r ∧ r < M ∧ r * x % M = 1 % M) := by
  have hM2 : 2 ≤ M := by omega
  have hone : DynamicModulus.one M = 1 := DynamicModulus.one_of_two_le hM2
  have hzero : DynamicModulus.zero M = 0 := rfl
  obtain ⟨a, ha_eq, ha_dvd, ha_bound, _⟩ :=
    xgcd_main M x (x.natAbs + 1) M 0 x 1
      (by omega) (by omega) hx (le_refl M)
      ⟨1, by ring⟩ (by simp) (Or.inr ⟨le_refl 0, by norm_num⟩) (by simp) (by simp)
  have hrun : xgcdGo (x.natAbs + 1) M (DynamicModulus.zero M) x (DynamicModulus.one M) =
      some ((((Int.gcd M x : Nat)) : Int), a) := by
    rw [hzero, hone, ha_eq]
  have hunfold := DynamicModulus.inv_reduce (by rw [hzero]; omega) hrun
  rw [hzero] at hunfold
  refine ⟨_, hunfold, ?_⟩
  intro hg
  rw [hg] at ha_dvd ha_bound
  push_cast at ha_dvd ha_bound
  rw [hg, Nat.cast_one, Int.tdiv_one]
  have hbd := abs_le.mp (show |a| ≤ M - 1 by omega)
  have hdvd' : M ∣ a * x - 1 := by
    have := (dvd_neg).mpr ha_dvd
    simpa [neg_sub] using this
  have hmain : ∀ b : Int, 0 ≤ b → b < M → M ∣ b * x - 1 → b * x % M = 1 % M := by
    intro b hb0 hbM hbdvd
    have h2 : (1 : Int) ≡ b * x [ZMOD M] := Int.modEq_iff_dvd.mpr hbdvd
    exact h2.symm
  by_cases haneg : a < 0
  · rw [if_pos haneg]
    have hadd : DynamicModulus.add M a M = a + M := by
      unfold DynamicModulus.add
      rw [Int.tmod_eq_emod (by omega) (by omega), Int.emod_eq_of_lt (by omega) (by omega)]
    rw [hadd]
    have hdvd2 : M ∣ (a + M) * x - 1 := by
      have heq : (a + M) * x - 1 = (a * x - 1) + M * x := by ring
      rw [heq]
      exact dvd_add hdvd' (Dvd.intro _ rfl)
    exact ⟨by omega, by omega, hmain (a + M) (by omega) (by omega) hdvd2⟩
  · rw [if_neg haneg]
    exact ⟨by omega, by omega, hmain a (by omega) (by omega) hdvd'⟩

/-! ### C1: correctness of the modular inverse -/

/-- C1 amended: for the static variant the property holds for every
modulus `1 < M < 2^63` (for larger `M` the `M as i64` cast wraps and the
inverse can abort or misbehave, see the counterexample); for the dynamic
variant it holds for every `M > 1`; and for `M = 24` the coprime residues
are exactly `{1,5,7,11,13,17,19,23}`. -/
theorem c1_theorem :
    (∀ M x : Nat, 1 < M → M < 2 ^ 63 → 0 < x → x < M → Nat.gcd x M = 1 →
      ∃ r, StaticModulus64.inv M x = some r ∧ r < M ∧
        StaticModulus64.mul M r x = some (StaticModulus64.one M)) ∧
    (∀ M x : Int, 1 < M → 0 < x → x < M → Int.gcd x M = 1 →
      ∃ r, DynamicModulus.inv M x = some r ∧ 0 ≤ r ∧ r < M ∧
        DynamicModulus.mul M r x = DynamicModulus.one M) ∧
    (∀ x : Nat, x < 24 → (Nat.gcd x 24 = 1 ↔
      x = 1 ∨ x = 5 ∨ x = 7 ∨ x = 11 ∨ x = 13 ∨ x = 17 ∨ x = 19 ∨ x = 23)) := by
  refine ⟨?_, ?_, by decide⟩
  · intro M x hM1 hM hx0 hx hg
    have hg' : Nat.gcd M x = 1 := by rwa [Nat.gcd_comm]
    obtain ⟨r, hr_eq, hr_lt, hr_mod⟩ := (StaticModulus64.inv_spec hM1 hM hx0 hx).1 hg'
    refine ⟨r, hr_eq, hr_lt, ?_⟩
    rw [StaticModulus64.mul_eq hr_lt hx, hr_mod]
    rfl
  · intro M x hM hx0 hx hg
    have hg' : Int.gcd M x = 1 := by rwa [Int.gcd_comm]
    obtain ⟨r, hr_eq, hprops⟩ := DynamicModulus.inv_characterisation (by omega) hx0 hx
    obtain ⟨hr0, hrM, hmod⟩ := hprops hg'
    refine ⟨r, hr_eq, hr0, hrM, ?_⟩
    rw [DynamicModulus.mul_emod (by omega) hr0 (by omega), hmod,
      DynamicModulus.one_eq (by omega)]

/-- C1 witness: the amended statement applied at `M = 24`, `x = 5` for
both variants. -/
theorem c1_witness :
    (∃ r, StaticModulus64.inv 24 5 = some r ∧ r < 24 ∧
      StaticModulus64.mul 24 r 5 = some (StaticModulus64.one 24)) ∧
    (∃ r, DynamicModulus.inv 24 5 = some r ∧ 0 ≤ r ∧ r < 24 ∧
      DynamicModulus.mul 24 r 5 = DynamicModulus.one 24) :=
  ⟨c1_theorem.1 24 5 (by norm_num) (by norm_num) (by norm_num) (by norm_num) (by decide),
   c1_theorem.2.1 24 5 (by norm_num) (by norm_num) (by norm_num) (by decide)⟩

/-! ### C6: fatal behaviour of `inv` on non-invertible inputs -/

/-- C6 amended: `inv(0)` aborts for both variants; the static variant
aborts on every reduced non-invertible `x` when `1 < M < 2^63`; but the
dynamic variant, having no `gcd` assertion, returns a value for every
reduced `x ≠ 0`; and for `M ≥ 2^63` even the static assertion can be
evaded (`M = 2^64 - 4`, `x = 9`, `gcd = 3`, returns `1`). -/
theorem c6_theorem :
    (∀ M : Nat, StaticModulus64.inv M 0 = none) ∧
    (∀ M : Int, DynamicModulus.inv M 0 = none) ∧
    (∀ M x : Nat, 1 < M → M < 2 ^ 63 → 0 < x → x < M → Nat.gcd x M ≠ 1 →
      StaticModulus64.inv M x = none) ∧
    (∀ M x : Int, 1 ≤ M → 0 < x → x < M → ∃ r, DynamicModulus.inv M x = some r) ∧
    (Nat.gcd 9 (2 ^ 64 - 4) = 3 ∧ StaticModulus64.inv (2 ^ 64 - 4) 9 = some 1) := by
  refine ⟨?_, ?_, ?_, ?_, by decide⟩
  · intro M
    unfold StaticModulus64.inv
    by_cases h : (0 : Nat) < M
    · rw [if_pos h, if_pos rfl]
    · rw [if_neg h]
  · intro M
    unfold DynamicModulus.inv
    rw [if_pos (show (0 : Int) = DynamicModulus.zero M from rfl)]
  · intro M x hM1 hM hx0 hx hg
    exact (StaticModulus64.inv_spec hM1 hM hx0 hx).2 (by rwa [Nat.gcd_comm] at hg)
  · intro M x hM hx0 hx
    obtain ⟨r, hr, _⟩ := DynamicModulus.inv_characterisation hM hx0 hx
    exact ⟨r, hr⟩

/-- C6 witness: `inv(0)` aborts, and the static variant aborts at
`M = 6`, `x = 2` where `gcd(2, 6) = 2`. -/
theorem c6_witness :
    StaticModulus64.inv 6 2 = none ∧ DynamicModulus.inv 7 0 = none ∧
    (∃ r, DynamicModulus.inv 6 2 = some r) :=
  ⟨c6_theorem.2.2.1 6 2 (by norm_num) (by norm_num) (by norm_num) (by norm_num)
      (by decide),
   c6_theorem.2.1 7,
   c6_theorem.2.2.2.1 6 2 (by norm_num) (by norm_num) (by norm_num)⟩

/-! ### C3: the closure invariant -/

/-- C3 amended: closure holds for the static variant (with `M > 1` for
`one` and `pow`, and `1 < M < 2^63` plus an invertible divisor for `inv`
and `div`), and for the dynamic variant's `zero`, `one`, `add`, `mul`,
`pow`, `inv` and `div` — but not for the dynamic `neg` and `sub`, whose
truncated `%` can return negative values (see the counterexample). -/
theorem c3_theorem :
    (∀ M : Nat, 0 < M → StaticModulus64.zero M < M) ∧
    (∀ M : Nat, 1 < M → StaticModulus64.one M < M) ∧
    (∀ M x : Nat, x < M → ∃ r, StaticModulus64.neg M x = some r ∧ r < M) ∧
    (∀ M x y : Nat, x < M → y < M → ∃ r, StaticModulus64.add M x y = some r ∧ r < M) ∧
    (∀ M x y : Nat, x < M → y < M → ∃ r, StaticModulus64.sub M x y = some r ∧ r < M) ∧
    (∀ M x y : Nat, x < M → y < M → ∃ r, StaticModulus64.mul M x y = some r ∧ r < M) ∧
    (∀ M x y : Nat, 1 < M → x < M → ∃ r, StaticModulus64.pow M x y = some r ∧ r < M) ∧
    (∀ M x : Nat, 1 < M → M < 2 ^ 63 → 0 < x → x < M → Nat.gcd x M = 1 →
      ∃ r, StaticModulus64.inv M x = some r ∧ r < M) ∧
    (∀ M x y : Nat, 1 < M → M < 2 ^ 63 → x < M → 0 < y → y < M → Nat.gcd y M = 1 →
      ∃ r, StaticModulus64.div M x y = some r ∧ r < M) ∧
    (∀ M : Int, 1 ≤ M → 0 ≤ DynamicModulus.zero M ∧ DynamicModulus.zero M < M ∧
      0 ≤ DynamicModulus.one M ∧ DynamicModulus.one M < M) ∧
    (∀ M x y : Int, 1 ≤ M → 0 ≤ x → x < M → 0 ≤ y → y < M →
      (0 ≤ DynamicModulus.add M x y ∧ DynamicModulus.add M x y < M) ∧
      (0 ≤ DynamicModulus.mul M x y ∧ DynamicModulus.mul M x y < M)) ∧
    (∀ (M x : Int) (y : Nat), 1 ≤ M → 0 ≤ x → x < M →
      0 ≤ DynamicModulus.pow M x y ∧ DynamicModulus.pow M x y < M) ∧
    (∀ M x : Int, 1 ≤ M → 0 < x → x < M → Int.gcd x M = 1 →
      ∃ r, DynamicModulus.inv M x = some r ∧ 0 ≤ r ∧ r < M) ∧
    (∀ M x y : Int, 1 ≤ M → 0 ≤ x → x < M → 0 < y → y < M → Int.gcd y M = 1 →
      ∃ r, DynamicModulus.div M x y = some r ∧ 0 ≤ r ∧ r < M) := by
  have hneg : ∀ M x : Nat, x < M → ∃ r, StaticModulus64.neg M x = some r ∧ r < M := by
    intro M x hx
    refine ⟨_, by rw [StaticModulus64.neg, if_pos hx], ?_⟩
    by_cases h : x = 0
    · simp [h]; omega
    · simp [h]; omega
  have hinvS : ∀ M x : Nat, 1 < M → M < 2 ^ 63 → 0 < x → x < M → Nat.gcd x M = 1 →
      ∃ r, StaticModulus64.inv M x = some r ∧ r < M := by
    intro M x hM1 hM hx0 hx hg
    obtain ⟨r, hr_eq, hr_lt, _⟩ :=
      (StaticModulus64.inv_spec hM1 hM hx0 hx).1 (by rwa [Nat.gcd_comm])
    exact ⟨r, hr_eq, hr_lt⟩
  have hinvD : ∀ M x : Int, 1 ≤ M → 0 < x → x < M → Int.gcd x M = 1 →
      ∃ r, DynamicModulus.inv M x = some r ∧ 0 ≤ r ∧ r < M := by
    intro M x hM hx0 hx hg
    obtain ⟨r, hr_eq, hprops⟩ := DynamicModulus.inv_characterisation hM hx0 hx
    obtain ⟨hr0, hrM, _⟩ := hprops (by rwa [Int.gcd_comm])
    exact ⟨r, hr_eq, hr0, hrM⟩
  have hmulD : ∀ M x y : Int, 1 ≤ M → 0 ≤ x → 0 ≤ y →
      0 ≤ DynamicModulus.mul M x y ∧ DynamicModulus.mul M x y < M := by
    intro M x y hM hx hy
    rw [DynamicModulus.mul_emod (by omega) hx hy]
    exact ⟨Int.emod_nonneg _ (by omega), Int.emod_lt_of_pos _ (by omega)⟩
  refine ⟨?_, ?_, hneg, ?_, ?_, ?_, ?_, hinvS, ?_, ?_, ?_, ?_, hinvD, ?_⟩
  · intro M hM
    simpa [StaticModulus64.zero] using hM
  · intro M hM
    simpa [StaticModulus64.one] using hM
  · intro M x y hx hy
    exact StaticModulus64.add_closed hx hy
  · intro M x y hx hy
    obtain ⟨ny, hny, hnyM⟩ := hneg M y hy
    obtain ⟨r, hr, hrM⟩ := StaticModulus64.add_closed hx hnyM
    refine ⟨r, ?_, hrM⟩
    rw [StaticModulus64.sub, hny]
    exact hr
  · intro M x y hx hy
    exact ⟨x * y % M, StaticModulus64.mul_eq hx hy, Nat.mod_lt _ (by omega)⟩
  · intro M x y hM hx
    exact ⟨x ^ y % M, StaticModulus64.pow_eq hM hx y, Nat.mod_lt _ (by omega)⟩
  · intro M x y hM1 hM hx hy0 hy hg
    obtain ⟨iy, hiy, hiyM⟩ := hinvS M y hM1 hM hy0 hy hg
    refine ⟨x * iy % M, ?_, Nat.mod_lt _ (by omega)⟩
    rw [StaticModulus64.div, hiy]
    exact StaticModulus64.mul_eq hx hiyM
  · intro M hM
    refine ⟨le_refl 0, by simpa [DynamicModulus.zero] using (by omega : (0:Int) < M), ?_, ?_⟩
    · rw [DynamicModulus.one_eq hM]
      exact Int.emod_nonneg _ (by omega)
    · rw [DynamicModulus.one_eq hM]
      exact Int.emod_lt_of_pos _ (by omega)
  · intro M x y hM hx hxM hy hyM
    refine ⟨?_, hmulD M x y hM hx hy⟩
    rw [DynamicModulus.add_emod_eq (by omega) hx hy]
    exact ⟨Int.emod_nonneg _ (by omega), Int.emod_lt_of_pos _ (by omega)⟩
  · intro M x y hM hx hxM
    rw [DynamicModulus.pow_emod hM hx y]
    exact ⟨Int.emod_nonneg _ (by omega), Int.emod_lt_of_pos _ (by omega)⟩
  · intro M x y hM hx hxM hy0 hy hg
    obtain ⟨iy, hiy, hiy0, hiyM⟩ := hinvD M y hM hy0 hy hg
    refine ⟨DynamicModulus.mul M x iy, ?_, hmulD M x iy hM hx hiy0⟩
    rw [DynamicModulus.div, hiy]
    rfl

/-- C3 witness: closure applied at a few concrete inputs. -/
theorem c3_witness :
    (∃ r, StaticModulus64.neg 5 3 = some r ∧ r < 5) ∧
    (∃ r, StaticModulus64.pow 5 3 4 = some r ∧ r < 5) ∧
    (∃ r, DynamicModulus.inv 5 2 = some r ∧ 0 ≤ r ∧ r < 5) :=
  ⟨c3_theorem.2.2.1 5 3 (by norm_num),
   c3_theorem.2.2.2.2.2.2.1 5 3 4 (by norm_num) (by norm_num),
   c3_theorem.2.2.2.2.2.2.2.2.2.2.2.2.1 5 2 (by norm_num) (by norm_num) (by norm_num)
     (by decide)⟩
